import Mathlib

/-!
Verification of the batched embedding pipeline in
`src/surprise_models/generate_embeddings_batched.py`.

The pipeline is embedded shallowly: filesystem paths are lists of path
components, the frame tensor of a chunk is a list of frames, the external
LLaVA feature extractor is an abstract encoder function (image batch to
per-image pooled vectors, possibly failing), and the driver loop threads an
explicit map from output paths to written archives.  Line numbers in the
doc comments refer to `generate_embeddings_batched.py`.
-/

namespace SurpriseModels

/-- A filesystem path, as its list of components.  The source manipulates
Python `pathlib` paths; components never contain the separator. -/
abbrev FsPath := List String

/-- One frame of the loaded frame tensor.  The source distinguishes frames
only by rank and last dimension (lines 60-68): a rank-2 frame (height by
width, no channel axis) or a rank-3 frame whose last dimension is the
channel count, with one channel-value list per pixel. -/
inductive Frame where
  | gray (rows : List (List Nat))
  | color (channels : Nat) (pixels : List (List (List Nat)))
  deriving DecidableEq

/-- The slice `frame[..., :3]` of line 65 on a rank-3 frame: keep only the
first three channel values of every pixel. -/
def stripAlpha (px : List (List (List Nat))) : List (List (List Nat)) :=
  px.map (fun row => row.map (fun pixel => pixel.take 3))

/-- Per-frame validation of lines 60-68, in source order: a rank-2 frame is
dropped (grayscale); a last dimension of 4 strips to the first 3 channels
and is valid; a last dimension other than 3 is dropped; otherwise the frame
is valid as is.  Returns the image handed to the encoder, or `none` when
the frame is dropped. -/
def normalizeFrame : Frame → Option Frame
  | .gray _ => none
  | .color c px =>
    if c = 4 then some (.color 3 (stripAlpha px))
    else if c ≠ 3 then none
    else some (.color c px)

/-- The accumulation of `valid_images` and `valid_indices` in lines 54-71:
indices paired with their normalized images, in frame order, keeping
exactly the frames the normalizer accepts. -/
def collectValid (frames : List Frame) : List (Nat × Frame) :=
  frames.enum.filterMap (fun p => (normalizeFrame p.2).map (fun img => (p.1, img)))

/-- Whether `pat` occurs at the start of `l`. -/
def leadsWith : List Char → List Char → Bool
  | [], _ => true
  | _ :: _, [] => false
  | a :: ps, b :: ls => (a == b) && leadsWith ps ls

/-- Whether `pat` occurs as a contiguous substring of `l` (the Python `in`
test on strings). -/
def hasSub (pat : List Char) : List Char → Bool
  | [] => pat.isEmpty
  | b :: ls => leadsWith pat (b :: ls) || hasSub pat ls

/-- The key heuristic of line 51: `"frame" in k.lower()`. -/
def keyHasFrame (k : String) : Bool :=
  hasSub ("frame").data (k.data.map Char.toLower)

/-- An input chunk archive: named tensors in key order.  Only frame-shaped
tensors are ever read by the pipeline, so each entry holds a frame list. -/
structure InputArchive where
  entries : List (String × List Frame)
  deriving DecidableEq

/-- Association lookup on a key-value list, first match wins. -/
def lookupBy {α β : Type} [DecidableEq α] : List (α × β) → α → Option β
  | [], _ => none
  | (k, v) :: rest, q => if k = q then some v else lookupBy rest q

/-- Lines 49-52: list the archive keys, take the first whose lowercased
name contains "frame" (`next(...)` raises `StopIteration` when none
matches, a chunk-fatal error), and load that tensor. -/
def loadFrames (arc : InputArchive) : Except String (List Frame) :=
  match (arc.entries.map Prod.fst).find? keyHasFrame with
  | none => .error ("no frame-like key")
  | some k =>
    match lookupBy arc.entries k with
    | none => .error ("missing tensor")
    | some t => .ok t

/-- The `str.replace` of lines 40-41: every bar character becomes an
underscore. -/
def sanitize (s : String) : String :=
  String.mk (s.data.map (fun c => if c = '|' then '_' else c))

/-- The `pathlib` stem for the names produced by `rglob("*.safetensors")`
(line 30): the file name without its final ".safetensors" extension,
which is 12 characters long. -/
def stemOf (s : String) : String :=
  String.mk (s.data.take (s.data.length - 12))

/-- The output path of lines 39-44: destination root, then the parent
directories of the relative path with bars replaced by underscores, then
the sanitized stem suffixed with "_embedded" before the extension. -/
def outputPathOf (outRoot : FsPath) (relPath : FsPath) : FsPath :=
  outRoot ++ (relPath.map sanitize).dropLast ++
    [sanitize (stemOf (List.getLastD relPath (""))) ++ "_embedded.safetensors"]

/-- One located chunk: its path relative to the source root and its input
archive contents. -/
structure Chunk where
  relPath : FsPath
  archive : InputArchive
  deriving DecidableEq

/-- One written output archive: the two tensors saved on line 101. -/
structure OutputArchive where
  frame_data : List Frame
  embedding_data : List (List Int)
  deriving DecidableEq

/-- The per-chunk result the driver records: existence skip (line 45), no
valid frames (line 73), a written archive (line 101), or a caught failure
logged with the chunk path (line 105). -/
inductive ChunkOutcome where
  | skippedExisting
  | skippedNoValid
  | written (arch : OutputArchive)
  | failed (chunkPath : FsPath) (msg : String)
  deriving DecidableEq

/-- The external feature extractor (LLaVA vision tower plus mean pooling,
lines 78-87), treated as a black box: a batch of images yields one pooled
vector per image, or fails (chunk-fatal). -/
abbrev Encoder := List Frame → Except String (List (List Int))

/-- The destination filesystem: written archives by output path. -/
abbrev FS := List (FsPath × OutputArchive)

/-- The scatter loop of lines 90-92: `embeddings[idx] = emb` for each
`(idx, emb)` pair, over a slot list initialised to `None`. -/
def scatterFold (l : List (Nat × List Int)) (acc : List (Option (List Int))) :
    List (Option (List Int)) :=
  l.foldl (fun acc2 pr => acc2.set pr.1 (some pr.2)) acc

/-- Lines 90-98: scatter the pooled rows back to the original frame
indices and fill the remaining slots with `torch.zeros_like(pooled[0])`. -/
def buildArchive (frames : List Frame) (pooled : List (List Int)) : OutputArchive :=
  let zero : List Int := List.replicate (pooled.headD []).length 0
  let slots : List (Option (List Int)) := List.replicate frames.length none
  let filled := scatterFold (List.zip ((collectValid frames).map Prod.fst) pooled) slots
  ⟨frames, filled.map (fun o => o.getD zero)⟩

/-- The body of one loop iteration after the existence check (lines
49-101): load the frame tensor, normalize, skip when no frame is valid,
call the encoder once on the batch of all valid images, and realign.
`calls` records every batch handed to the external encoder. -/
inductive BodyResult where
  | noWrite (o : ChunkOutcome) (calls : List (List Frame))
  | write (arch : OutputArchive) (calls : List (List Frame))
  deriving DecidableEq

def processBody (enc : Encoder) (c : Chunk) : BodyResult :=
  match loadFrames c.archive with
  | .error e => .noWrite (.failed c.relPath e) []
  | .ok frames =>
    let pairs := collectValid frames
    if pairs.isEmpty then .noWrite .skippedNoValid []
    else
      match enc (pairs.map Prod.snd) with
      | .error e => .noWrite (.failed c.relPath e) [pairs.map Prod.snd]
      | .ok pooled => .write (buildArchive frames pooled) [pairs.map Prod.snd]

/-- The result of one driver iteration. -/
structure StepResult where
  fs : FS
  outcome : ChunkOutcome
  encCalls : List (List Frame)
  deriving DecidableEq

/-- One driver iteration (lines 38-106): skip when the output path already
exists, otherwise run the body and persist a produced archive under the
output path.  Failures never escape the iteration. -/
def processOne (enc : Encoder) (outRoot : FsPath) (fs : FS) (c : Chunk) : StepResult :=
  let op := outputPathOf outRoot c.relPath
  match lookupBy fs op with
  | some _ => ⟨fs, .skippedExisting, []⟩
  | none =>
    match processBody enc c with
    | .noWrite o calls => ⟨fs, o, calls⟩
    | .write arch calls => ⟨(op, arch) :: fs, .written arch, calls⟩

/-- The result of a whole run: final destination filesystem, per-chunk
outcomes in order, and all encoder invocations in order. -/
structure RunResult where
  fs : FS
  outcomes : List ChunkOutcome
  encCalls : List (List Frame)
  deriving DecidableEq

/-- The driver loop of line 37 over all located chunks. -/
def runPipeline (enc : Encoder) (outRoot : FsPath) (fs : FS) : List Chunk → RunResult
  | [] => ⟨fs, [], []⟩
  | c :: rest =>
    let s := processOne enc outRoot fs c
    let r := runPipeline enc outRoot s.fs rest
    ⟨r.fs, s.outcome :: r.outcomes, s.encCalls ++ r.encCalls⟩

/-- Content of a file on disk: a completely written archive, or the
remnant of a write that failed partway. -/
inductive FileContent where
  | complete (arch : OutputArchive)
  | truncated
  deriving DecidableEq

/-- Modelled from the spec: `save_file` (the external safetensors
collaborator, line 101) writes both tensors directly to the final output
path — there is no temp-file-plus-rename in the source — and section 9 of
the spec records that a write failing midway leaves a possibly-partial
file in place under that final name. -/
def saveFileAt (ok : Bool) (fsys : List (FsPath × FileContent)) (p : FsPath)
    (arch : OutputArchive) : List (FsPath × FileContent) :=
  if ok then (p, .complete arch) :: fsys else (p, .truncated) :: fsys

/-- The Python `str(rel_path)` rendering: join path components with the separator. -/
def joinWithSlash : List String → String
  | [] => ""
  | [s] => s
  | s :: rest => s ++ "/" ++ joinWithSlash rest

/-- The output path as claim C9 words it, for comparison with
`outputPathOf`: destination root plus the relative path with every
directory separator and every literal bar replaced by an underscore, the
stem suffixed with "_embedded" before the archive extension. -/
def claimedOutputPath (outRoot : FsPath) (relPath : FsPath) : FsPath :=
  let flat : String :=
    String.mk ((joinWithSlash relPath).data.map
      (fun c => if c = '/' ∨ c = '|' then '_' else c))
  outRoot ++ [stemOf flat ++ "_embedded.safetensors"]

/-- The amended description of the source path computation: the directory
part of the relative path is mirrored (separators preserved), each
component has bars replaced by underscores, and the sanitized stem gets
the "_embedded" suffix before the ".safetensors" extension. -/
def mirroredOutputPath (outRoot : FsPath) (relPath : FsPath) : FsPath :=
  outRoot ++ relPath.dropLast.map sanitize ++
    [sanitize (stemOf (List.getLastD relPath (""))) ++ "_embedded" ++ ".safetensors"]

/-! Concrete fixtures used by witnesses and counterexamples. -/

def frameA : Frame := .color 3 [[[1, 2, 3]]]

def frameB : Frame := .color 3 [[[9, 9, 9]]]

def frameRGBA : Frame := .color 4 [[[1, 2, 3, 7]]]

def frameGray : Frame := .gray [[5]]

def arcA : InputArchive := ⟨[("frame_data", [frameA])]⟩

def arcB : InputArchive := ⟨[("frame_data", [frameB])]⟩

def arcMix : InputArchive := ⟨[("frame_data", [frameGray, frameA])]⟩

def arcRGBA : InputArchive := ⟨[("frame_data", [frameRGBA])]⟩

def arcGray : InputArchive := ⟨[("frame_data", [frameGray])]⟩

def arcNoKey : InputArchive := ⟨[("poses", [frameA])]⟩

def chunkA : Chunk := ⟨["a|b.safetensors"], arcA⟩

def chunkB : Chunk := ⟨["a_b.safetensors"], arcB⟩

def chunkMix : Chunk := ⟨["m.safetensors"], arcMix⟩

def chunkRGBA : Chunk := ⟨["r.safetensors"], arcRGBA⟩

def chunkGray : Chunk := ⟨["g.safetensors"], arcGray⟩

def chunkNoKey : Chunk := ⟨["n.safetensors"], arcNoKey⟩

/-- A stub encoder mapping every image to the one-component vector `[1]`. -/
def encOne : Encoder := fun imgs => .ok (imgs.map (fun _ => [1]))

/-- A destination filesystem that already holds an archive under the
output path of `chunkB` (and of `chunkA`, which sanitizes to the same). -/
def fsPre : FS := [(["a_b_embedded.safetensors"], OutputArchive.mk [frameA] [[1]])]

/-! Helper lemmas about the normalizer output and the scatter loop. -/

theorem collect_fst_sublist (frames : List Frame) :
    List.Sublist ((collectValid frames).map Prod.fst) (List.range frames.length) := by
  have h : ∀ l : List (Nat × Frame),
      List.Sublist
        ((l.filterMap (fun p => (normalizeFrame p.2).map (fun img => (p.1, img)))).map
          Prod.fst)
        (l.map Prod.fst) := by
    intro l
    induction l with
    | nil => simp
    | cons p rest ih =>
      cases hn : normalizeFrame p.2 with
      | none => simpa [List.filterMap_cons, hn] using ih.cons p.1
      | some img => simpa [List.filterMap_cons, hn] using ih.cons₂ p.1
  simpa [collectValid, List.enum_map_fst] using h frames.enum

theorem collect_fst_nodup (frames : List Frame) :
    ((collectValid frames).map Prod.fst).Nodup :=
  (List.nodup_range _).sublist (collect_fst_sublist frames)

theorem collect_fst_lt (frames : List Frame) :
    ∀ i ∈ (collectValid frames).map Prod.fst, i < frames.length := fun _ hi =>
  List.mem_range.mp ((collect_fst_sublist frames).subset hi)

theorem collect_fst_sorted (frames : List Frame) :
    ((collectValid frames).map Prod.fst).Pairwise (· < ·) :=
  (List.pairwise_lt_range _).sublist (collect_fst_sublist frames)

theorem mem_collectValid (frames : List Frame) (i : Nat) (f img : Frame)
    (hget : frames[i]? = some f) (hnorm : normalizeFrame f = some img) :
    (i, img) ∈ collectValid frames := by
  have henum : (i, f) ∈ frames.enum := List.mk_mem_enum_iff_getElem?.mpr hget
  exact List.mem_filterMap.mpr ⟨(i, f), henum, by simp [hnorm]⟩

theorem collect_fst_elim (frames : List Frame) (i : Nat)
    (hi : i ∈ (collectValid frames).map Prod.fst) :
    ∃ f img, frames[i]? = some f ∧ normalizeFrame f = some img := by
  rcases List.mem_map.mp hi with ⟨⟨j, img⟩, hmem, hj⟩
  rcases List.mem_filterMap.mp hmem with ⟨⟨j2, f2⟩, henum, hstep⟩
  cases hn2 : normalizeFrame f2 with
  | none => rw [hn2] at hstep; simp at hstep
  | some im2 =>
    rw [hn2] at hstep
    simp only [Option.map_some] at hstep
    obtain ⟨hj2, him⟩ := Prod.mk.injEq .. ▸ Option.some.injEq .. ▸ hstep
    have hg2 := List.mk_mem_enum_iff_getElem?.mp henum
    refine ⟨f2, im2, ?_, hn2⟩
    have : j = i := hj
    rw [← this, ← hj2]
    exact hg2

theorem collect_fst_not_mem (frames : List Frame) (i : Nat) (f : Frame)
    (hget : frames[i]? = some f) (hnorm : normalizeFrame f = none) :
    i ∉ (collectValid frames).map Prod.fst := by
  intro hi
  rcases collect_fst_elim frames i hi with ⟨f2, im2, hg2, hn2⟩
  rw [hget] at hg2
  cases Option.some.inj hg2
  rw [hnorm] at hn2
  exact Option.noConfusion hn2

theorem scatterFold_length (l : List (Nat × List Int)) (acc : List (Option (List Int))) :
    (scatterFold l acc).length = acc.length := by
  induction l generalizing acc with
  | nil => rfl
  | cons p rest ih =>
    calc (scatterFold (p :: rest) acc).length
        = (scatterFold rest (acc.set p.1 (some p.2))).length := rfl
      _ = (acc.set p.1 (some p.2)).length := ih _
      _ = acc.length := List.length_set ..

theorem scatterFold_not_mem (l : List (Nat × List Int)) (acc : List (Option (List Int)))
    (i : Nat) (h : i ∉ l.map Prod.fst) : (scatterFold l acc)[i]? = acc[i]? := by
  induction l generalizing acc with
  | nil => rfl
  | cons p rest ih =>
    have hne : p.1 ≠ i := fun he => h (by simp [← he])
    have hrest : i ∉ rest.map Prod.fst := fun hm => h (by simp [hm])
    calc (scatterFold (p :: rest) acc)[i]?
        = (scatterFold rest (acc.set p.1 (some p.2)))[i]? := rfl
      _ = (acc.set p.1 (some p.2))[i]? := ih _ hrest
      _ = acc[i]? := List.getElem?_set_ne hne

theorem scatterFold_hit (l : List (Nat × List Int)) (acc : List (Option (List Int)))
    (j i : Nat) (v : List Int) (hnd : (l.map Prod.fst).Nodup)
    (hget : l[j]? = some (i, v)) (hi : i < acc.length) :
    (scatterFold l acc)[i]? = some (some v) := by
  induction l generalizing j acc with
  | nil => simp at hget
  | cons p rest ih =>
    cases j with
    | zero =>
      have hp : p = (i, v) := by simpa using hget
      subst hp
      have hrest : i ∉ rest.map Prod.fst := by
        have h2 : (i :: rest.map Prod.fst).Nodup := by simpa using hnd
        exact (List.nodup_cons.mp h2).1
      calc (scatterFold ((i, v) :: rest) acc)[i]?
          = (scatterFold rest (acc.set i (some v)))[i]? := rfl
        _ = (acc.set i (some v))[i]? := scatterFold_not_mem _ _ _ hrest
        _ = some (some v) := List.getElem?_set_eq_of_lt _ hi
    | succ j0 =>
      have hget0 : rest[j0]? = some (i, v) := by simpa using hget
      have hnd0 : (rest.map Prod.fst).Nodup := by
        have h2 : (p.1 :: rest.map Prod.fst).Nodup := by simpa using hnd
        exact (List.nodup_cons.mp h2).2
      have hi0 : i < (acc.set p.1 (some p.2)).length := by
        simpa [List.length_set] using hi
      exact ih _ _ hnd0 hget0 hi0

theorem mem_of_getElem_opt {α : Type} {l : List α} {i : Nat} {a : α}
    (h : l[i]? = some a) : a ∈ l := by
  rcases List.getElem?_eq_some.mp h with ⟨hl, he⟩
  exact he ▸ List.getElem_mem hl

theorem buildArchive_frame_data (frames : List Frame) (pooled : List (List Int)) :
    (buildArchive frames pooled).frame_data = frames := rfl

theorem buildArchive_length (frames : List Frame) (pooled : List (List Int)) :
    (buildArchive frames pooled).embedding_data.length = frames.length := by
  simp [buildArchive, scatterFold_length]

theorem zip_getElem_opt {α β : Type} (l1 : List α) (l2 : List β) (j : Nat) (a : α)
    (b : β) (h1 : l1[j]? = some a) (h2 : l2[j]? = some b) :
    (List.zip l1 l2)[j]? = some (a, b) := by
  induction l1 generalizing l2 j with
  | nil => simp at h1
  | cons x xs ih =>
    cases l2 with
    | nil => simp at h2
    | cons y ys =>
      cases j with
      | zero =>
        simp only [List.getElem?_cons_zero] at h1 h2
        simp [List.zip_cons_cons, Option.some.inj h1, Option.some.inj h2]
      | succ j0 =>
        simpa using ih ys j0 (by simpa using h1) (by simpa using h2)

theorem buildArchive_valid (frames : List Frame) (pooled : List (List Int))
    (hlen : pooled.length = (collectValid frames).length) (j i : Nat) (img : Frame)
    (hj : (collectValid frames)[j]? = some (i, img)) :
    (buildArchive frames pooled).embedding_data[i]? = pooled[j]? := by
  have hjlen : j < (collectValid frames).length := (List.getElem?_eq_some.mp hj).1
  have hjp : j < pooled.length := by omega
  have hidx : ((collectValid frames).map Prod.fst)[j]? = some i := by
    rw [List.getElem?_map, hj]; rfl
  have hilen : i < frames.length :=
    collect_fst_lt frames i (mem_of_getElem_opt hidx)
  cases hv : pooled[j]? with
  | none =>
    exfalso
    rw [List.getElem?_eq_none_iff] at hv
    omega
  | some v =>
    have hzip : (List.zip ((collectValid frames).map Prod.fst) pooled)[j]? =
        some (i, v) := zip_getElem_opt _ _ j i v hidx hv
    have hmapfst : (List.zip ((collectValid frames).map Prod.fst) pooled).map Prod.fst =
        (collectValid frames).map Prod.fst :=
      List.map_fst_zip _ _ (by rw [List.length_map]; omega)
    have hnd : ((List.zip ((collectValid frames).map Prod.fst) pooled).map
        Prod.fst).Nodup := by
      rw [hmapfst]; exact collect_fst_nodup frames
    have hhit := scatterFold_hit _ (List.replicate frames.length none) j i v
      hnd hzip (by simpa using hilen)
    show ((scatterFold _ _).map _)[i]? = _
    rw [List.getElem?_map, hhit]
    rfl

theorem buildArchive_dropped (frames : List Frame) (pooled : List (List Int)) (D : Nat)
    (hne : collectValid frames ≠ [])
    (hlen : pooled.length = (collectValid frames).length)
    (hD : ∀ v ∈ pooled, v.length = D) (i : Nat) (f : Frame)
    (hget : frames[i]? = some f) (hnorm : normalizeFrame f = none) :
    (buildArchive frames pooled).embedding_data[i]? = some (List.replicate D 0) := by
  have hilen : i < frames.length := (List.getElem?_eq_some.mp hget).1
  have hzero : ((pooled.head?.getD [] : List Int)).length = D := by
    cases pooled with
    | nil =>
      exfalso
      exact hne (List.eq_nil_of_length_eq_zero hlen.symm)
    | cons v rest => simpa using hD v (List.mem_cons_self ..)
  have hnm : i ∉ (collectValid frames).map Prod.fst :=
    collect_fst_not_mem frames i f hget hnorm
  have hnm2 : i ∉ (List.zip ((collectValid frames).map Prod.fst) pooled).map Prod.fst := by
    rw [List.map_fst_zip _ _ (by simp [hlen])]
    exact hnm
  have hmiss := scatterFold_not_mem
    (List.zip ((collectValid frames).map Prod.fst) pooled)
    (List.replicate frames.length none) i hnm2
  have hrep : (List.replicate frames.length (none : Option (List Int)))[i]? = some none := by
    rw [List.getElem?_eq_getElem (by simpa using hilen), List.getElem_replicate]
  show ((scatterFold _ _).map _)[i]? = _
  rw [List.getElem?_map, hmiss, hrep]
  simp [hzero]

theorem processBody_write_eq (enc : Encoder) (c : Chunk) (frames : List Frame)
    (pooled : List (List Int)) (hload : loadFrames c.archive = .ok frames)
    (hne : collectValid frames ≠ [])
    (henc : enc ((collectValid frames).map Prod.snd) = .ok pooled) :
    processBody enc c =
      .write (buildArchive frames pooled) [(collectValid frames).map Prod.snd] := by
  have hie : (collectValid frames).isEmpty = false := by simp [List.isEmpty_iff, hne]
  simp [processBody, hload, hie, henc]

theorem processOne_written (enc : Encoder) (outRoot : FsPath) (fs : FS) (c : Chunk)
    (frames : List Frame) (pooled : List (List Int))
    (hfs : lookupBy fs (outputPathOf outRoot c.relPath) = none)
    (hload : loadFrames c.archive = .ok frames)
    (hne : collectValid frames ≠ [])
    (henc : enc ((collectValid frames).map Prod.snd) = .ok pooled) :
    processOne enc outRoot fs c =
      ⟨(outputPathOf outRoot c.relPath, buildArchive frames pooled) :: fs,
       .written (buildArchive frames pooled),
       [(collectValid frames).map Prod.snd]⟩ := by
  simp [processOne, hfs, processBody_write_eq enc c frames pooled hload hne henc]

/-! Claim theorems. -/

/-- C1: for a chunk with at least one Valid frame (and an encoder meeting its
per-image contract), the driver iteration invokes the external feature
extractor exactly once, with the batch of all valid images, and for every
original frame index i classified Valid the written embedding row at index i
equals the extractor pooled output row for that frame. -/
theorem C1_batch_encode_once (enc : Encoder) (outRoot : FsPath) (fs : FS) (c : Chunk)
    (frames : List Frame) (pooled : List (List Int))
    (hfs : lookupBy fs (outputPathOf outRoot c.relPath) = none)
    (hload : loadFrames c.archive = .ok frames)
    (hne : collectValid frames ≠ [])
    (henc : enc ((collectValid frames).map Prod.snd) = .ok pooled)
    (hlen : pooled.length = (collectValid frames).length) :
    (processOne enc outRoot fs c).encCalls = [(collectValid frames).map Prod.snd] ∧
    ∃ arch, (processOne enc outRoot fs c).outcome = .written arch ∧
      ∀ (j i : Nat) (img : Frame), (collectValid frames)[j]? = some (i, img) →
        arch.embedding_data[i]? = pooled[j]? := by
  rw [processOne_written enc outRoot fs c frames pooled hfs hload hne henc]
  exact ⟨rfl, buildArchive frames pooled, rfl,
    fun j i img hj => buildArchive_valid frames pooled hlen j i img hj⟩

theorem C1_batch_encode_once_witness :
    (processOne encOne [] [] chunkA).encCalls = [(collectValid [frameA]).map Prod.snd] ∧
    ∃ arch, (processOne encOne [] [] chunkA).outcome = .written arch ∧
      ∀ (j i : Nat) (img : Frame), (collectValid [frameA])[j]? = some (i, img) →
        arch.embedding_data[i]? = [[(1 : Int)]][j]? :=
  C1_batch_encode_once encOne [] [] chunkA [frameA] [[1]] rfl rfl (by decide) rfl rfl

/-- C2: when a chunk writes its archive, the embedding sequence has the same
length as the frame sequence (the original frame count), and every index
whose frame was dropped holds exactly the all-zero vector of the encoder
width D. -/
theorem C2_realigned_zeros (enc : Encoder) (outRoot : FsPath) (fs : FS) (c : Chunk)
    (frames : List Frame) (pooled : List (List Int)) (D : Nat)
    (hfs : lookupBy fs (outputPathOf outRoot c.relPath) = none)
    (hload : loadFrames c.archive = .ok frames)
    (hne : collectValid frames ≠ [])
    (henc : enc ((collectValid frames).map Prod.snd) = .ok pooled)
    (hlen : pooled.length = (collectValid frames).length)
    (hD : ∀ v ∈ pooled, v.length = D) :
    ∃ arch, (processOne enc outRoot fs c).outcome = .written arch ∧
      arch.embedding_data.length = arch.frame_data.length ∧
      arch.frame_data.length = frames.length ∧
      ∀ (i : Nat) (f : Frame), frames[i]? = some f → normalizeFrame f = none →
        arch.embedding_data[i]? = some (List.replicate D 0) := by
  rw [processOne_written enc outRoot fs c frames pooled hfs hload hne henc]
  refine ⟨buildArchive frames pooled, rfl, ?_, ?_, ?_⟩
  · rw [buildArchive_length, buildArchive_frame_data]
  · rw [buildArchive_frame_data]
  · exact fun i f hget hnorm => buildArchive_dropped frames pooled D hne hlen hD i f hget hnorm

theorem C2_realigned_zeros_witness :
    ∃ arch, (processOne encOne [] [] chunkMix).outcome = .written arch ∧
      arch.embedding_data.length = arch.frame_data.length ∧
      arch.frame_data.length = [frameGray, frameA].length ∧
      ∀ (i : Nat) (f : Frame), [frameGray, frameA][i]? = some f → normalizeFrame f = none →
        arch.embedding_data[i]? = some (List.replicate 1 0) :=
  C2_realigned_zeros encOne [] [] chunkMix [frameGray, frameA] [[1]] 1 rfl rfl
    (by decide) rfl rfl (by decide)

/-- C5: the normalizer drops rank-2 frames as grayscale, turns a 4-channel
frame Valid by keeping only its first 3 channels, drops any frame whose last
dimension is neither 3 nor 4, keeps 3-channel frames Valid unchanged, and
the (index, image) pairs for Valid frames keep strictly increasing original
indices, preserving relative order. -/
theorem C5_normalizer_classification :
    (∀ rows, normalizeFrame (.gray rows) = none) ∧
    (∀ px, normalizeFrame (.color 4 px) = some (.color 3 (stripAlpha px))) ∧
    (∀ c px, c ≠ 3 → c ≠ 4 → normalizeFrame (.color c px) = none) ∧
    (∀ px, normalizeFrame (.color 3 px) = some (.color 3 px)) ∧
    (∀ frames, ((collectValid frames).map Prod.fst).Pairwise (· < ·)) := by
  refine ⟨fun rows => rfl, fun px => rfl, ?_, fun px => rfl, collect_fst_sorted⟩
  intro c px h3 h4
  simp [normalizeFrame, h3, h4]

theorem C5_normalizer_classification_witness :
    normalizeFrame (Frame.color 5 [[[1, 1, 1, 1, 1]]]) = none :=
  C5_normalizer_classification.2.2.1 5 [[[1, 1, 1, 1, 1]]] (by decide) (by decide)

/-- C6: a chunk in which no frame is classified Valid writes no output
archive (the destination filesystem reaching the remaining chunks is
unchanged) and the run continues with the next chunk. -/
theorem C6_no_valid_frames_no_write (enc : Encoder) (outRoot : FsPath) (fs : FS)
    (c : Chunk) (rest : List Chunk) (frames : List Frame)
    (hfs : lookupBy fs (outputPathOf outRoot c.relPath) = none)
    (hload : loadFrames c.archive = .ok frames)
    (hempty : collectValid frames = []) :
    runPipeline enc outRoot fs (c :: rest) =
      ⟨(runPipeline enc outRoot fs rest).fs,
       ChunkOutcome.skippedNoValid :: (runPipeline enc outRoot fs rest).outcomes,
       (runPipeline enc outRoot fs rest).encCalls⟩ := by
  have hb : processBody enc c = .noWrite .skippedNoValid [] := by
    simp [processBody, hload, hempty]
  have hp : processOne enc outRoot fs c = ⟨fs, .skippedNoValid, []⟩ := by
    simp [processOne, hfs, hb]
  simp [runPipeline, hp]

theorem C6_no_valid_frames_no_write_witness :
    runPipeline encOne [] [] (chunkGray :: []) =
      ⟨(runPipeline encOne [] [] []).fs,
       ChunkOutcome.skippedNoValid :: (runPipeline encOne [] [] []).outcomes,
       (runPipeline encOne [] [] []).encCalls⟩ :=
  C6_no_valid_frames_no_write encOne [] [] chunkGray [] [frameGray] rfl rfl (by decide)

/-- C7: the frame_data tensor written for a chunk is the loaded input frame
tensor unchanged, and a 4-channel input frame keeps its 4 channels in the
written copy while the image handed to the encoder is its alpha-stripped
3-channel version. -/
theorem C7_frame_data_unchanged (enc : Encoder) (outRoot : FsPath) (fs : FS) (c : Chunk)
    (frames : List Frame) (pooled : List (List Int))
    (hfs : lookupBy fs (outputPathOf outRoot c.relPath) = none)
    (hload : loadFrames c.archive = .ok frames)
    (hne : collectValid frames ≠ [])
    (henc : enc ((collectValid frames).map Prod.snd) = .ok pooled) :
    ∃ arch, (processOne enc outRoot fs c).outcome = .written arch ∧
      arch.frame_data = frames ∧
      ∀ (i : Nat) (px : List (List (List Nat))), frames[i]? = some (Frame.color 4 px) →
        (i, Frame.color 3 (stripAlpha px)) ∈ collectValid frames := by
  rw [processOne_written enc outRoot fs c frames pooled hfs hload hne henc]
  refine ⟨buildArchive frames pooled, rfl, buildArchive_frame_data frames pooled, ?_⟩
  intro i px hget
  exact mem_collectValid frames i _ _ hget rfl

theorem C7_frame_data_unchanged_witness :
    ∃ arch, (processOne encOne [] [] chunkRGBA).outcome = .written arch ∧
      arch.frame_data = [frameRGBA] ∧
      ∀ (i : Nat) (px : List (List (List Nat))), [frameRGBA][i]? = some (Frame.color 4 px) →
        (i, Frame.color 3 (stripAlpha px)) ∈ collectValid [frameRGBA] :=
  C7_frame_data_unchanged encOne [] [] chunkRGBA [frameRGBA] [[1]] rfl rfl
    (by decide) rfl

/-! Driver lemmas for resumability and failure isolation. -/

theorem processBody_noWrite_cases (enc : Encoder) (c : Chunk) (o : ChunkOutcome)
    (calls : List (List Frame)) (h : processBody enc c = .noWrite o calls) :
    o = .skippedNoValid ∨ ∃ e, o = .failed c.relPath e := by
  cases hl : loadFrames c.archive with
  | error e =>
    have hpb : processBody enc c = .noWrite (.failed c.relPath e) [] := by
      simp [processBody, hl]
    rw [hpb] at h
    simp only [BodyResult.noWrite.injEq] at h
    exact Or.inr ⟨e, h.1.symm⟩
  | ok frames =>
    by_cases hie : (collectValid frames).isEmpty
    · have hpb : processBody enc c = .noWrite .skippedNoValid [] := by
        simp [processBody, hl, hie]
      rw [hpb] at h
      simp only [BodyResult.noWrite.injEq] at h
      exact Or.inl h.1.symm
    · cases he : enc ((collectValid frames).map Prod.snd) with
      | error e =>
        have hpb : processBody enc c =
            .noWrite (.failed c.relPath e) [(collectValid frames).map Prod.snd] := by
          simp [processBody, hl, hie, he]
        rw [hpb] at h
        simp only [BodyResult.noWrite.injEq] at h
        exact Or.inr ⟨e, h.1.symm⟩
      | ok pooled =>
        have hpb : processBody enc c =
            .write (buildArchive frames pooled) [(collectValid frames).map Prod.snd] := by
          simp [processBody, hl, hie, he]
        rw [hpb] at h
        exact absurd h (by simp)

theorem processOne_fs_mono (enc : Encoder) (outRoot : FsPath) (fs : FS) (c : Chunk)
    (p : FsPath) (a : OutputArchive) (h : lookupBy fs p = some a) :
    lookupBy (processOne enc outRoot fs c).fs p = some a := by
  cases hl : lookupBy fs (outputPathOf outRoot c.relPath) with
  | some b => simpa [processOne, hl] using h
  | none =>
    cases hb : processBody enc c with
    | noWrite o calls => simpa [processOne, hl, hb] using h
    | write arch calls =>
      have hne : ¬ outputPathOf outRoot c.relPath = p := by
        intro he
        rw [he, h] at hl
        exact Option.noConfusion hl
      simpa [processOne, hl, hb, lookupBy, hne] using h

theorem run_fs_mono (enc : Encoder) (outRoot : FsPath) (cs : List Chunk) (fs : FS)
    (p : FsPath) (a : OutputArchive) (h : lookupBy fs p = some a) :
    lookupBy (runPipeline enc outRoot fs cs).fs p = some a := by
  induction cs generalizing fs with
  | nil => simpa [runPipeline] using h
  | cons c rest ih => exact ih _ (processOne_fs_mono enc outRoot fs c p a h)

theorem processOne_write_shape (enc : Encoder) (outRoot : FsPath) (fs : FS) (c : Chunk)
    (arch : OutputArchive)
    (h : (processOne enc outRoot fs c).outcome = .written arch) :
    (processOne enc outRoot fs c).fs = (outputPathOf outRoot c.relPath, arch) :: fs := by
  cases hl : lookupBy fs (outputPathOf outRoot c.relPath) with
  | some b => simp [processOne, hl] at h
  | none =>
    cases hb : processBody enc c with
    | noWrite o calls =>
      exfalso
      have ho : o = .written arch := by simpa [processOne, hl, hb] using h
      rcases processBody_noWrite_cases enc c o calls hb with h1 | ⟨e, h2⟩
      · rw [ho] at h1; exact ChunkOutcome.noConfusion h1
      · rw [ho] at h2; exact ChunkOutcome.noConfusion h2
    | write arch2 calls =>
      have ho : arch2 = arch := by
        have := h
        simp only [processOne, hl, hb] at this
        exact ChunkOutcome.written.inj this
      rw [← ho]
      simp [processOne, hl, hb]

theorem processOne_self_settled (enc : Encoder) (outRoot : FsPath) (fs : FS) (c : Chunk) :
    (processOne enc outRoot (processOne enc outRoot fs c).fs c).fs =
      (processOne enc outRoot fs c).fs := by
  cases hl : lookupBy fs (outputPathOf outRoot c.relPath) with
  | some a =>
    have h1 : (processOne enc outRoot fs c).fs = fs := by simp [processOne, hl]
    rw [h1]
    simp [processOne, hl]
  | none =>
    cases hb : processBody enc c with
    | noWrite o calls =>
      have h1 : (processOne enc outRoot fs c).fs = fs := by simp [processOne, hl, hb]
      rw [h1]
      simp [processOne, hl, hb]
    | write arch calls =>
      have h1 : (processOne enc outRoot fs c).fs =
          (outputPathOf outRoot c.relPath, arch) :: fs := by simp [processOne, hl, hb]
      rw [h1]
      have h2 : lookupBy ((outputPathOf outRoot c.relPath, arch) :: fs)
          (outputPathOf outRoot c.relPath) = some arch := by simp [lookupBy]
      simp [processOne, h2]

theorem processOne_settled_extend (enc : Encoder) (outRoot : FsPath) (fs fs2 : FS)
    (c : Chunk) (hext : ∀ p a, lookupBy fs p = some a → lookupBy fs2 p = some a)
    (hst : (processOne enc outRoot fs c).fs = fs) :
    (processOne enc outRoot fs2 c).fs = fs2 := by
  cases hl2 : lookupBy fs2 (outputPathOf outRoot c.relPath) with
  | some a => simp [processOne, hl2]
  | none =>
    cases hl : lookupBy fs (outputPathOf outRoot c.relPath) with
    | some a =>
      exfalso
      have := hext _ _ hl
      rw [hl2] at this
      exact Option.noConfusion this
    | none =>
      cases hb : processBody enc c with
      | noWrite o calls => simp [processOne, hl2, hb]
      | write arch calls =>
        exfalso
        have h1 : (processOne enc outRoot fs c).fs =
            (outputPathOf outRoot c.relPath, arch) :: fs := by simp [processOne, hl, hb]
        rw [hst] at h1
        have h2 := congrArg List.length h1
        simp at h2

theorem run_settled (enc : Encoder) (outRoot : FsPath) (cs : List Chunk) :
    ∀ fs, ∀ c ∈ cs,
      (processOne enc outRoot (runPipeline enc outRoot fs cs).fs c).fs =
        (runPipeline enc outRoot fs cs).fs := by
  induction cs with
  | nil =>
    intro fs c hc
    exact absurd hc (List.not_mem_nil c)
  | cons c0 rest ih =>
    intro fs c hc
    have hrw : (runPipeline enc outRoot fs (c0 :: rest)).fs =
        (runPipeline enc outRoot (processOne enc outRoot fs c0).fs rest).fs := rfl
    rw [hrw]
    rcases List.mem_cons.mp hc with hceq | hcmem
    · subst hceq
      exact processOne_settled_extend enc outRoot _ _ c
        (fun p a h => run_fs_mono enc outRoot rest _ p a h)
        (processOne_self_settled enc outRoot fs c)
    · exact ih _ c hcmem

theorem run_noop (enc : Encoder) (outRoot : FsPath) (cs : List Chunk) (fs : FS) :
    (∀ c ∈ cs, (processOne enc outRoot fs c).fs = fs) →
    (runPipeline enc outRoot fs cs).fs = fs := by
  induction cs with
  | nil => intro _; rfl
  | cons c0 rest ih =>
    intro h
    have h0 : (processOne enc outRoot fs c0).fs = fs := h c0 (List.mem_cons_self ..)
    have hrw : (runPipeline enc outRoot fs (c0 :: rest)).fs =
        (runPipeline enc outRoot (processOne enc outRoot fs c0).fs rest).fs := rfl
    rw [hrw, h0]
    exact ih (fun c hc => h c (List.mem_cons_of_mem _ hc))

theorem run_outcomes_length (enc : Encoder) (outRoot : FsPath) (cs : List Chunk) :
    ∀ fs, (runPipeline enc outRoot fs cs).outcomes.length = cs.length := by
  induction cs with
  | nil => intro fs; rfl
  | cons c rest ih =>
    intro fs
    simpa [runPipeline] using ih (processOne enc outRoot fs c).fs

/-- C3: the pipeline is idempotent with respect to existing outputs: a chunk
whose output path is already present is skipped with no write and no read of
its input archive (the step result is the same for every archive content);
a second run over the same chunks changes nothing on the destination; and on
that second run no chunk is written again. -/
theorem C3_idempotent_resume (enc : Encoder) (outRoot : FsPath) (fs : FS)
    (cs : List Chunk) :
    (∀ (rp : FsPath) (arc : InputArchive) (a : OutputArchive),
        lookupBy fs (outputPathOf outRoot rp) = some a →
        processOne enc outRoot fs ⟨rp, arc⟩ = ⟨fs, .skippedExisting, []⟩) ∧
    (runPipeline enc outRoot (runPipeline enc outRoot fs cs).fs cs).fs =
      (runPipeline enc outRoot fs cs).fs ∧
    ∀ c ∈ cs, ∀ arch,
      (processOne enc outRoot (runPipeline enc outRoot fs cs).fs c).outcome ≠
        ChunkOutcome.written arch := by
  refine ⟨?_, ?_, ?_⟩
  · intro rp arc a h
    simp [processOne, h]
  · exact run_noop enc outRoot cs _ (fun c hc => run_settled enc outRoot cs fs c hc)
  · intro c hc arch hw
    have hsh := processOne_write_shape enc outRoot _ c arch hw
    have hst := run_settled enc outRoot cs fs c hc
    rw [hst] at hsh
    have h2 := congrArg List.length hsh
    simp at h2

theorem C3_idempotent_resume_witness :
    processOne encOne [] fsPre (Chunk.mk (["a_b.safetensors"]) arcB) =
      ⟨fsPre, .skippedExisting, []⟩ :=
  (C3_idempotent_resume encOne [] fsPre []).1 (["a_b.safetensors"]) arcB
    (OutputArchive.mk [frameA] [[1]]) rfl

/-- C4: no per-chunk failure halts the run: every chunk receives an outcome;
a chunk whose body produces no archive leaves the destination untouched
while the driver advances to the remaining chunks; and both a missing
frame-like key and an encoder failure are recorded as a Failed outcome
carrying the chunk identity. -/
theorem C4_failures_isolated (enc : Encoder) (outRoot : FsPath) (fs : FS)
    (chunks : List Chunk) :
    ((runPipeline enc outRoot fs chunks).outcomes.length = chunks.length) ∧
    (∀ (c : Chunk) (rest : List Chunk) (o : ChunkOutcome) (calls : List (List Frame)),
        lookupBy fs (outputPathOf outRoot c.relPath) = none →
        processBody enc c = .noWrite o calls →
        runPipeline enc outRoot fs (c :: rest) =
          ⟨(runPipeline enc outRoot fs rest).fs,
           o :: (runPipeline enc outRoot fs rest).outcomes,
           calls ++ (runPipeline enc outRoot fs rest).encCalls⟩) ∧
    (∀ (c : Chunk) (e : String),
        lookupBy fs (outputPathOf outRoot c.relPath) = none →
        loadFrames c.archive = .error e →
        (processOne enc outRoot fs c).outcome = .failed c.relPath e) ∧
    (∀ (c : Chunk) (frames : List Frame) (e : String),
        lookupBy fs (outputPathOf outRoot c.relPath) = none →
        loadFrames c.archive = .ok frames →
        collectValid frames ≠ [] →
        enc ((collectValid frames).map Prod.snd) = .error e →
        (processOne enc outRoot fs c).outcome = .failed c.relPath e) := by
  refine ⟨run_outcomes_length enc outRoot chunks fs, ?_, ?_, ?_⟩
  · intro c rest o calls hfs hb
    have hp : processOne enc outRoot fs c = ⟨fs, o, calls⟩ := by
      simp [processOne, hfs, hb]
    simp [runPipeline, hp]
  · intro c e hfs herr
    have hb : processBody enc c = .noWrite (.failed c.relPath e) [] := by
      simp [processBody, herr]
    simp [processOne, hfs, hb]
  · intro c frames e hfs hload hne henc
    have hie : (collectValid frames).isEmpty = false := by simp [List.isEmpty_iff, hne]
    have hb : processBody enc c =
        .noWrite (.failed c.relPath e) [(collectValid frames).map Prod.snd] := by
      simp [processBody, hload, hie, henc]
    simp [processOne, hfs, hb]

theorem C4_failures_isolated_witness :
    (processOne encOne [] [] chunkNoKey).outcome =
      ChunkOutcome.failed (["n.safetensors"]) ("no frame-like key") :=
  (C4_failures_isolated encOne [] [] []).2.2.1 chunkNoKey ("no frame-like key") rfl rfl

/-- C8: the modelled writer evaluated at a failing write: because save_file
writes directly to the final output path, a failure partway leaves a
truncated file visible under the final name, refuting all-or-nothing
atomicity; a successful write stores both tensors. -/
theorem C8_nonatomic_write_visible :
    lookupBy (saveFileAt false [] (["out_embedded.safetensors"])
        (OutputArchive.mk [frameA] [[1]])) (["out_embedded.safetensors"]) =
      some FileContent.truncated ∧
    lookupBy (saveFileAt true [] (["out_embedded.safetensors"])
        (OutputArchive.mk [frameA] [[1]])) (["out_embedded.safetensors"]) =
      some (FileContent.complete (OutputArchive.mk [frameA] [[1]])) :=
  ⟨rfl, rfl⟩

/-- C9 counterexample: on the two-component relative path d/a.safetensors the
source keeps the directory separator, mirroring the directory d under the
destination root, while the claim flattens the whole relative path into one
underscore-joined component. -/
theorem C9_counterexample_sep_preserved :
    outputPathOf [] (["d", "a.safetensors"]) ≠
      claimedOutputPath [] (["d", "a.safetensors"]) := by decide

/-- C9 amended: the output path is the destination root plus the relative
path with every literal bar replaced by an underscore and directory
separators preserved (the directory structure is mirrored), with the
sanitized stem suffixed by _embedded before the .safetensors extension. -/
theorem C9_amended_output_path (outRoot relPath : FsPath) :
    outputPathOf outRoot relPath = mirroredOutputPath outRoot relPath := by
  unfold outputPathOf mirroredOutputPath
  have hs : ("_embedded" ++ ".safetensors" : String) = "_embedded.safetensors" := rfl
  rw [← List.map_dropLast, String.append_assoc, hs]

/-- C10: the chunk-path to output-path mapping is not injective — the input
names a|b.safetensors and a_b.safetensors collide — and when both chunks are
processed in one run the second is skipped as already processed: the archive
stored under the shared output path holds the first chunk's frames, not the
second's. -/
theorem C10_collision_second_skipped :
    outputPathOf [] chunkA.relPath = outputPathOf [] chunkB.relPath ∧
    chunkA.relPath ≠ chunkB.relPath ∧
    (runPipeline encOne [] [] [chunkA, chunkB]).outcomes =
      [ChunkOutcome.written (OutputArchive.mk [frameA] [[1]]),
       ChunkOutcome.skippedExisting] ∧
    lookupBy (runPipeline encOne [] [] [chunkA, chunkB]).fs
        (outputPathOf [] chunkB.relPath) =
      some (OutputArchive.mk [frameA] [[1]]) ∧
    (OutputArchive.mk [frameA] [[1]]).frame_data ≠ [frameB] := by decide

end SurpriseModels
